import Mathlib

/-!
Verification of the incremental search and highlight-windowing engine of the
termiscope_rust repository, a shallow embedding of `search_file_contents` and
its collaborators from `src/main.rs`.

Modelling conventions:
- A line of text is a `List Char`; Rust byte offsets are modelled as character
  offsets (the two coincide on ASCII content, and all concrete inputs used
  below are ASCII).
- The `lru::LruCache` is modelled as a most-recently-used-first association
  list with explicit state passing; `main.rs` fixes its capacity to 100.
- The `regex` crate is abstracted as a structure `Rgx` carrying the observable
  behaviour the code consumes: `find_iter` on a line, i.e. the list of
  non-overlapping leftmost match ranges.  `Rgx.WF` records the invariants
  guaranteed by non-overlapping leftmost regex iteration.
- Regex compilation (`RegexBuilder::build`) and the file system
  (`fs::read_to_string`) are external collaborators, passed as explicit
  function parameters `compile : String → Option Rgx` and
  `fsRead : String → Option Line`.
- Fallible reads return `Option`; failure (`none`) covers permissions errors,
  deleted files and non-UTF8 content alike, matching `Err(_) => continue`.
-/

/-- A line (or file content) as a sequence of characters. -/
abbrev Line := List Char

/-- A half-open match interval `[start, end)` into a line. -/
abbrev MatchRange := Nat × Nat

/-- A produced result row: `(file path, display_line, display_ranges)`,
mirroring the Rust tuple `(String, String, Vec<(usize, usize)>)`. -/
abbrev ResultEntry := String × Line × List MatchRange

/-- The three-character ellipsis marker `"..."`. -/
def dots : Line := ['.', '.', '.']

/-- The sentinel display line `"Invalid regex pattern"`. -/
def invalidMsg : Line := ("Invalid regex pattern").data

/-! ### Rust `str::lines` -/

/-- Split a character list at every newline character; always returns at least
one (possibly empty) piece, like `str::split('\n')`. -/
def splitNl : List Char → List Line
  | [] => [[]]
  | c :: rest =>
    if c = '\n' then [] :: splitNl rest
    else
      match splitNl rest with
      | [] => [[c]]
      | l :: ls => (c :: l) :: ls

/-- Remove a single trailing carriage return, like Rust `lines` does per line. -/
def stripCr (l : Line) : Line :=
  if l.getLast? = some '\r' then l.dropLast else l

/-- Rust `str::lines`: split on `'\n'`, drop the final empty piece produced by
a trailing newline (or by empty input), strip one trailing `'\r'` per line. -/
def rustLines (content : Line) : List Line :=
  let ps := splitNl content
  (if ps.getLast? = some [] then ps.dropLast else ps).map stripCr

/-! ### The LRU content cache (`lru::LruCache<String, String>`) -/

/-- Find the value of the first pair with the given key. -/
def kvFind (k : String) : List (String × Line) → Option Line
  | [] => none
  | (k₂, v) :: rest => if k = k₂ then some v else kvFind k rest

/-- Remove the first pair with the given key, if any. -/
def kvErase (k : String) : List (String × Line) → List (String × Line)
  | [] => []
  | (k₂, v) :: rest => if k = k₂ then rest else (k₂, v) :: kvErase k rest

/-- The content cache: an association list from file path to file content,
ordered most-recently-used first. -/
structure LruCache where
  entries : List (String × Line)
deriving DecidableEq

/-- The cache capacity fixed in `main`: `LruCache::new(100)`. -/
def CACHE_CAP : Nat := 100

/-- Model of `LruCache::get`: on a hit, return the value and promote the entry
to most-recently-used; on a miss, leave the cache untouched. -/
def lruGet (c : LruCache) (k : String) : Option Line × LruCache :=
  match kvFind k c.entries with
  | none => (none, c)
  | some v => (some v, ⟨(k, v) :: kvErase k c.entries⟩)

/-- Model of `LruCache::put` with capacity `CACHE_CAP`: insert (or refresh) the
key at the most-recently-used position and evict from the least-recently-used
end down to capacity. -/
def lruPut (c : LruCache) (k : String) (v : Line) : LruCache :=
  ⟨((k, v) :: kvErase k c.entries).take CACHE_CAP⟩

/-- An abstract cache operation, for stating the size invariant over arbitrary
operation sequences. -/
inductive CacheOp where
  | get (k : String)
  | put (k : String) (v : Line)

/-- Apply one cache operation. -/
def applyOp (c : LruCache) : CacheOp → LruCache
  | CacheOp.get k => (lruGet c k).2
  | CacheOp.put k v => lruPut c k v

/-- Apply a sequence of cache operations. -/
def applyOps (c : LruCache) (ops : List CacheOp) : LruCache :=
  ops.foldl applyOp c

/-- Insert a list of key/value pairs in order. -/
def insertAll (c : LruCache) (kvs : List (String × Line)) : LruCache :=
  kvs.foldl (fun c p => lruPut c p.1 p.2) c

/-! ### The regex abstraction -/

/-- The observable behaviour of a compiled regex that the code consumes:
`find_iter` on a single line. -/
structure Rgx where
  findIter : Line → List MatchRange

/-- The invariants of a list of ranges produced by non-overlapping leftmost
regex find iteration over a line of length `n`: every range is well-formed and
within the line, ranges are pairwise non-overlapping and have strictly
increasing starts. -/
def RangesWF (rs : List MatchRange) (n : Nat) : Prop :=
  (∀ p ∈ rs, p.1 ≤ p.2 ∧ p.2 ≤ n) ∧
    rs.Pairwise fun a b => a.2 ≤ b.1 ∧ a.1 < b.1

/-- A regex is well-formed when its `find_iter` output satisfies `RangesWF` on
every line. -/
def Rgx.WF (re : Rgx) : Prop :=
  ∀ l : Line, RangesWF (re.findIter l) l.length

/-- Matches of the single-character literal regex for `c`, starting at offset
`i`: the behaviour of `find_iter` for a pattern such as `"a"`. -/
def charMatches (c : Char) : List Char → Nat → List MatchRange
  | [], _ => []
  | x :: xs, i =>
    if x = c then (i, i + 1) :: charMatches c xs (i + 1)
    else charMatches c xs (i + 1)

/-- The single-character literal regex (e.g. pattern `"a"`). -/
def charRegex (c : Char) : Rgx := ⟨fun l => charMatches c l 0⟩

/-- The end-anchor regex `"$"`: exactly one zero-width match at end of line. -/
def dollarRegex : Rgx := ⟨fun l => [(l.length, l.length)]⟩

/-- Zero-width matches at every position of a line of length `n`: the
behaviour of `find_iter` for the empty regex `""`, or for `"a*"` on a line
containing no `'a'`. -/
def zwMatches (n : Nat) : List MatchRange :=
  (List.range (n + 1)).map fun i => (i, i)

/-- The regex with a zero-width match at every position (e.g. pattern `""`). -/
def zwRegex : Rgx := ⟨fun l => zwMatches l.length⟩

/-! ### The windowing and remapping pipeline (`search_file_contents`) -/

/-- Remap raw match ranges into display coordinates, from `main.rs` lines
303–313: keep ranges starting at or after `startPos`, shift by
`prefixOff - startPos` clamping the end to the display length, then drop any
range not satisfying `start < dispLen && end <= dispLen`. -/
def adjustRanges (rs : List MatchRange) (startPos prefixOff dispLen : Nat) :
    List MatchRange :=
  ((rs.filter fun r => decide (startPos ≤ r.1)).map
      fun r => (r.1 - startPos + prefixOff,
                min (r.2 - startPos + prefixOff) dispLen)).filter
    fun r => decide (r.1 < dispLen) && decide (r.2 ≤ dispLen)

/-- The window construction for one matched line, from `main.rs` lines
277–313: `first` is the start of the first match. `tw - 33` is the width
budget (30 columns for the path plus 3 of padding); Rust `saturating_sub` is
exactly `Nat` subtraction. -/
def windowLine (tw : Nat) (line : Line) (rs : List MatchRange) (first : Nat) :
    Line × List MatchRange :=
  let maxTextLen := tw - 33
  if maxTextLen < line.length then
    let context := min 20 first
    let startPos := first - context
    let endPos := min (startPos + maxTextLen) line.length
    let core := (line.drop startPos).take (endPos - startPos)
    let prefixOff := if 0 < startPos then 3 else 0
    let pre := if 0 < startPos then dots ++ core else core
    let disp := if endPos < line.length then pre ++ dots else pre
    (disp, adjustRanges rs startPos prefixOff disp.length)
  else
    (line, adjustRanges rs 0 0 line.length)

/-- Process one line: run `find_iter`; a line with no match produces nothing,
otherwise the window construction runs with the first match as anchor. -/
def processLine (re : Rgx) (tw : Nat) (line : Line) :
    Option (Line × List MatchRange) :=
  match re.findIter line with
  | [] => none
  | r :: rest => some (windowLine tw line (r :: rest) r.1)

/-- Process one file's content: every matching line contributes one entry, in
line order. -/
def processContent (re : Rgx) (tw : Nat) (path : String) (content : Line) :
    List ResultEntry :=
  (rustLines content).filterMap fun line =>
    (processLine re tw line).map fun dr => (path, dr.1, dr.2)

/-- Process one file of the loop body of `search_file_contents`: try the
cache (promoting on hit); on miss read from the file system, inserting the
content on success and silently skipping the file on failure. -/
def scanStep (re : Rgx) (tw : Nat) (fsRead : String → Option Line)
    (st : List ResultEntry × LruCache) (file : String) :
    List ResultEntry × LruCache :=
  match lruGet st.2 file with
  | (some content, c₂) => (st.1 ++ processContent re tw file content, c₂)
  | (none, _) =>
    match fsRead file with
    | some content =>
        (st.1 ++ processContent re tw file content, lruPut st.2 file content)
    | none => st

/-- Fold the per-file step over the file set. -/
def scanFold (re : Rgx) (tw : Nat) (fsRead : String → Option Line)
    (files : List String) (st : List ResultEntry × LruCache) :
    List ResultEntry × LruCache :=
  files.foldl (scanStep re tw fsRead) st

/-- The embedding of `search_file_contents` (`main.rs` lines 228–321),
returning the result sequence together with the cache state after the call.
An empty query reports every file once with an empty display line; a query
that fails to compile yields the single sentinel entry; otherwise every file
is scanned through the cache. -/
def searchFileContents (compile : String → Option Rgx)
    (fsRead : String → Option Line) (files : List String) (query : String)
    (cache : LruCache) (tw : Nat) : List ResultEntry × LruCache :=
  if query = "" then
    (files.map fun f => (f, ([] : Line), ([] : List MatchRange)), cache)
  else
    match compile query with
    | none => ([("", invalidMsg, [])], cache)
    | some re => scanFold re tw fsRead files ([], cache)

/-- Results of a scan computed directly from the file system, ignoring the
cache: the reference value that a scan from a cache agreeing with the file
system must produce. -/
def pureScan (re : Rgx) (tw : Nat) (fsRead : String → Option Line) :
    List String → List ResultEntry
  | [] => []
  | f :: fs =>
    (match fsRead f with
     | some content => processContent re tw f content
     | none => []) ++ pureScan re tw fsRead fs

/-- The cache agrees with the file system: every cached entry holds exactly
the content a fresh read would return. -/
def CacheAgrees (fsRead : String → Option Line) (c : LruCache) : Prop :=
  ∀ p ∈ c.entries, fsRead p.1 = some p.2

/-- Window construction written from the specification text for the long-line
case: left context of `min(20, first_match_start)`, window `[start_pos,
end_pos)` with `end_pos = min(start_pos + W, line.length)`, ellipsis markers
prepended iff `start_pos > 0` (with `prefix_offset = 3`) and appended iff
`end_pos < line.length`, and every kept range remapped by
`new_start = start - start_pos + prefix_offset`,
`new_end = end - start_pos + prefix_offset` clamped to the display length.
To be compared against the code-derived `windowLine`. -/
def windowSpecC1 (W : Nat) (line : Line) (rs : List MatchRange)
    (first : Nat) : Line × List MatchRange :=
  let context := min 20 first
  let start_pos := first - context
  let end_pos := min (start_pos + W) line.length
  let prefix_offset := if 0 < start_pos then 3 else 0
  let display := (if 0 < start_pos then dots else []) ++
    (line.drop start_pos).take (end_pos - start_pos) ++
    (if end_pos < line.length then dots else [])
  (display,
    ((rs.filter fun p => decide (start_pos ≤ p.1)).map fun p =>
        (p.1 - start_pos + prefix_offset,
         min (p.2 - start_pos + prefix_offset) display.length)).filter
      fun p => decide (p.1 < display.length) && decide (p.2 ≤ display.length))

/-- Fixture for the stale-cache scenario: file set of 101 distinct paths. -/
def cFiles : List String := "a" :: (List.range 100).map fun i => "f" ++ toString i

/-- Fixture file system: file `"a"` currently holds `"b"`; the 100 filler
files are empty. -/
def cFs : String → Option Line := fun p => if p = "a" then some ['b'] else some []

/-- Fixture compile function: the query compiles to the literal regex `"a"`. -/
def cCompile : String → Option Rgx := fun _ => some (charRegex 'a')

/-- Fixture initial cache: holds a stale copy `"a"` for file `"a"` (the file
system now holds `"b"`). -/
def cCache : LruCache := ⟨[("a", ['a'])]⟩

/-- Fixture for the eviction scenario: 101 distinct key/value pairs, one more
than the cache capacity. -/
def kvs101 : List (String × Line) :=
  (List.range 101).map fun i => ("f" ++ toString i, [])

/-! ### Association-list lemmas -/

theorem kvFind_eq_none {k : String} {l : List (String × Line)} :
    kvFind k l = none ↔ ∀ p ∈ l, k ≠ p.1 := by
  induction l with
  | nil => simp [kvFind]
  | cons q rest ih =>
    obtain ⟨k₂, v⟩ := q
    by_cases h : k = k₂
    · subst h; simp [kvFind]
    · simp [kvFind, h, ih]

theorem kvFind_mem {k : String} {v : Line} {l : List (String × Line)}
    (h : kvFind k l = some v) : (k, v) ∈ l := by
  induction l with
  | nil => simp [kvFind] at h
  | cons q rest ih =>
    obtain ⟨k₂, v₂⟩ := q
    by_cases hk : k = k₂
    · subst hk
      simp [kvFind] at h
      subst h
      exact List.mem_cons_self _ _
    · simp [kvFind, hk] at h
      exact List.mem_cons_of_mem _ (ih h)

theorem kvErase_subset {k : String} {p : String × Line}
    {l : List (String × Line)} (h : p ∈ kvErase k l) : p ∈ l := by
  induction l with
  | nil => simp [kvErase] at h
  | cons q rest ih =>
    obtain ⟨k₂, v₂⟩ := q
    by_cases hk : k = k₂
    · simp [kvErase, hk] at h
      exact List.mem_cons_of_mem _ h
    · simp [kvErase, hk] at h
      rcases h with h | h
      · simp [h]
      · exact List.mem_cons_of_mem _ (ih h)

theorem kvErase_of_find_none {k : String} {l : List (String × Line)}
    (h : kvFind k l = none) : kvErase k l = l := by
  induction l with
  | nil => simp [kvErase]
  | cons q rest ih =>
    obtain ⟨k₂, v₂⟩ := q
    by_cases hk : k = k₂
    · subst hk; simp [kvFind] at h
    · simp [kvFind, hk] at h
      simp [kvErase, hk, ih h]

theorem kvErase_length {k : String} {v : Line} {l : List (String × Line)}
    (h : kvFind k l = some v) : l.length = (kvErase k l).length + 1 := by
  induction l with
  | nil => simp [kvFind] at h
  | cons q rest ih =>
    obtain ⟨k₂, v₂⟩ := q
    by_cases hk : k = k₂
    · simp [kvErase, hk]
    · simp [kvFind, hk] at h
      simp [kvErase, hk, ih h]

/-! ### Cache-size lemmas -/

theorem lruGet_snd_length (c : LruCache) (k : String) :
    ((lruGet c k).2).entries.length = c.entries.length := by
  unfold lruGet
  cases h : kvFind k c.entries with
  | none => rfl
  | some v => simp [← kvErase_length h]

theorem lruPut_length_le (c : LruCache) (k : String) (v : Line) :
    (lruPut c k v).entries.length ≤ CACHE_CAP := by
  simp only [lruPut, List.length_take]
  exact Nat.min_le_left _ _

/-! ### Remapping lemmas -/

theorem adjustRanges_mem_lt {rs : List MatchRange} {sp po L : Nat}
    {p : MatchRange} (hp : p ∈ adjustRanges rs sp po L) :
    p.1 < L ∧ p.2 ≤ L := by
  unfold adjustRanges at hp
  have := (List.mem_filter.mp hp).2
  simp only [Bool.and_eq_true, decide_eq_true_eq] at this
  exact this

theorem adjustRanges_mem_bounds {rs : List MatchRange} {sp po L : Nat}
    (hle : ∀ q ∈ rs, q.1 ≤ q.2) :
    ∀ p ∈ adjustRanges rs sp po L, p.1 ≤ p.2 ∧ p.1 < L ∧ p.2 ≤ L := by
  intro p hp
  obtain ⟨h1, h2⟩ := adjustRanges_mem_lt hp
  refine ⟨?_, h1, h2⟩
  unfold adjustRanges at hp
  obtain ⟨hp₂, _⟩ := List.mem_filter.mp hp
  obtain ⟨q, hq, hmap⟩ := List.mem_map.mp hp₂
  obtain ⟨hqrs, _⟩ := List.mem_filter.mp hq
  have hq12 : q.1 ≤ q.2 := hle q hqrs
  subst hmap
  exact le_min (by omega) (le_of_lt h1)

theorem adjustRanges_pairwise {rs : List MatchRange} {sp po L : Nat}
    (h : rs.Pairwise fun a b => a.2 ≤ b.1) :
    (adjustRanges rs sp po L).Pairwise fun a b => a.2 ≤ b.1 := by
  unfold adjustRanges
  have h₁ : (rs.filter fun r => decide (sp ≤ r.1)).Pairwise
      (fun a b => a.2 ≤ b.1) := h.filter _
  have h₂ : ((rs.filter fun r => decide (sp ≤ r.1)).map
      (fun r => (r.1 - sp + po, min (r.2 - sp + po) L))).Pairwise
      (fun a b => b.1 < L → a.2 ≤ b.1) := by
    refine List.Pairwise.map _ ?_ h₁
    intro a b hab _
    calc min (a.2 - sp + po) L ≤ a.2 - sp + po := Nat.min_le_left _ _
      _ ≤ b.1 - sp + po := by omega
  refine List.Pairwise.imp_of_mem ?_ (h₂.filter _)
  intro a b _ hb hS
  have hbcond := (List.mem_filter.mp hb).2
  simp only [Bool.and_eq_true, decide_eq_true_eq] at hbcond
  exact hS hbcond.1

/-! ### Per-line invariant lemmas -/

theorem windowLine_eq (tw : Nat) (line : Line) (rs : List MatchRange)
    (first : Nat) :
    ∃ sp po, (windowLine tw line rs first).2 =
      adjustRanges rs sp po (windowLine tw line rs first).1.length := by
  by_cases h : tw - 33 < line.length
  · refine ⟨first - min 20 first, if 0 < first - min 20 first then 3 else 0, ?_⟩
    simp only [windowLine, if_pos h]
  · refine ⟨0, 0, ?_⟩
    simp only [windowLine, if_neg h]

theorem processLine_mem_lt {re : Rgx} {tw : Nat} {line d : Line}
    {ranges : List MatchRange} (h : processLine re tw line = some (d, ranges)) :
    ∀ p ∈ ranges, p.1 < d.length := by
  unfold processLine at h
  cases hf : re.findIter line with
  | nil => rw [hf] at h; exact absurd h (by simp)
  | cons r rest =>
    rw [hf] at h
    have heq := Option.some.inj h
    obtain ⟨sp, po, hw⟩ := windowLine_eq tw line (r :: rest) r.1
    have hd : d = (windowLine tw line (r :: rest) r.1).1 := by rw [heq]
    have hr : ranges = (windowLine tw line (r :: rest) r.1).2 := by rw [heq]
    intro p hp
    rw [hr, hw] at hp
    rw [hd]
    exact (adjustRanges_mem_lt hp).1

theorem processLine_invariant {re : Rgx} (hWF : re.WF) {tw : Nat}
    {line d : Line} {ranges : List MatchRange}
    (h : processLine re tw line = some (d, ranges)) :
    (∀ p ∈ ranges, p.1 ≤ p.2 ∧ p.2 ≤ d.length) ∧
      ranges.Pairwise fun a b => a.2 ≤ b.1 := by
  unfold processLine at h
  cases hf : re.findIter line with
  | nil => rw [hf] at h; exact absurd h (by simp)
  | cons r rest =>
    rw [hf] at h
    have heq := Option.some.inj h
    obtain ⟨hb, hpw⟩ := hWF line
    rw [hf] at hb hpw
    obtain ⟨sp, po, hw⟩ := windowLine_eq tw line (r :: rest) r.1
    have hd : d = (windowLine tw line (r :: rest) r.1).1 := by rw [heq]
    have hr : ranges = (windowLine tw line (r :: rest) r.1).2 := by rw [heq]
    constructor
    · intro p hp
      rw [hr, hw] at hp
      rw [hd]
      have := adjustRanges_mem_bounds (fun q hq => (hb q hq).1) p hp
      exact ⟨this.1, this.2.2⟩
    · rw [hr, hw]
      exact adjustRanges_pairwise (hpw.imp fun hab => hab.1)

/-! ### Well-formedness of the concrete regexes -/

theorem charMatches_mem {c : Char} :
    ∀ (l : List Char) (i : Nat), ∀ p ∈ charMatches c l i,
      i ≤ p.1 ∧ p.2 = p.1 + 1 ∧ p.2 ≤ i + l.length := by
  intro l
  induction l with
  | nil => intro i p hp; simp [charMatches] at hp
  | cons x xs ih =>
    intro i p hp
    by_cases hx : x = c
    · simp only [charMatches, if_pos hx] at hp
      rcases List.mem_cons.mp hp with h | h
      · subst h; simp
      · have := ih (i + 1) p h
        simp only [List.length_cons]
        omega
    · simp only [charMatches, if_neg hx] at hp
      have := ih (i + 1) p hp
      simp only [List.length_cons]
      omega

theorem charMatches_pairwise {c : Char} :
    ∀ (l : List Char) (i : Nat),
      (charMatches c l i).Pairwise fun a b => a.2 ≤ b.1 ∧ a.1 < b.1 := by
  intro l
  induction l with
  | nil => intro i; simp [charMatches]
  | cons x xs ih =>
    intro i
    by_cases hx : x = c
    · simp only [charMatches, if_pos hx]
      refine List.Pairwise.cons ?_ (ih (i + 1))
      intro p hp
      have := charMatches_mem xs (i + 1) p hp
      simp
      omega
    · simp only [charMatches, if_neg hx]
      exact ih (i + 1)

theorem charRegex_wf (c : Char) : (charRegex c).WF := by
  intro l
  refine ⟨?_, charMatches_pairwise l 0⟩
  intro p hp
  have := charMatches_mem l 0 p hp
  simp only [charRegex] at hp
  omega

theorem dollarRegex_wf : dollarRegex.WF := by
  intro l
  constructor
  · intro p hp
    simp only [dollarRegex, List.mem_singleton] at hp
    subst hp
    simp
  · simp [dollarRegex]

theorem zwRegex_wf : zwRegex.WF := by
  intro l
  constructor
  · intro p hp
    simp only [zwRegex, zwMatches, List.mem_map, List.mem_range] at hp
    obtain ⟨i, hi, hp⟩ := hp
    subst hp
    simp
    omega
  · simp only [zwRegex, zwMatches]
    rw [List.pairwise_map]
    exact (List.pairwise_lt_range _).imp fun h => ⟨Nat.le_of_lt h, h⟩

/-! ### Scan-level plumbing -/

theorem mem_processContent {re : Rgx} {tw : Nat} {path : String}
    {content : Line} {e : ResultEntry} (he : e ∈ processContent re tw path content) :
    ∃ line d ranges, processLine re tw line = some (d, ranges) ∧
      e = (path, d, ranges) := by
  unfold processContent at he
  obtain ⟨line, _, hsome⟩ := List.mem_filterMap.mp he
  obtain ⟨dr, hdr, hmap⟩ := Option.map_eq_some'.mp hsome
  exact ⟨line, dr.1, dr.2, by rw [hdr], by rw [← hmap]⟩

theorem scanFold_mem {re : Rgx} {tw : Nat} {fsRead : String → Option Line}
    (P : ResultEntry → Prop)
    (hP : ∀ path content e, e ∈ processContent re tw path content → P e) :
    ∀ (files : List String) (st : List ResultEntry × LruCache),
      (∀ e ∈ st.1, P e) →
      ∀ e ∈ (scanFold re tw fsRead files st).1, P e := by
  intro files
  induction files with
  | nil => intro st h e he; exact h e he
  | cons f fs ih =>
    intro st h e he
    rw [scanFold, List.foldl_cons] at he
    refine ih (scanStep re tw fsRead st f) ?_ e he
    intro e₂ he₂
    unfold scanStep at he₂
    rcases hg : lruGet st.2 f with ⟨mc, c₂⟩
    rw [hg] at he₂
    cases mc with
    | some content =>
      rcases List.mem_append.mp he₂ with h₂ | h₂
      · exact h e₂ h₂
      · exact hP f content e₂ h₂
    | none =>
      cases hfsr : fsRead f with
      | some content =>
        rw [hfsr] at he₂
        rcases List.mem_append.mp he₂ with h₂ | h₂
        · exact h e₂ h₂
        · exact hP f content e₂ h₂
      | none =>
        rw [hfsr] at he₂
        exact h e₂ he₂

/-! ### Eviction-order lemmas -/

theorem take_append_take {α : Type _} (l t : List α) (n : Nat) :
    (l ++ t.take n).take n = (l ++ t).take n := by
  rw [List.take_append_eq_append_take, List.take_take,
    List.take_append_eq_append_take, Nat.min_eq_left (Nat.sub_le n l.length)]

theorem insertAll_fresh :
    ∀ (kvs : List (String × Line)) (c : LruCache),
      c.entries.length ≤ CACHE_CAP →
      (kvs.map Prod.fst).Nodup →
      (∀ k ∈ kvs.map Prod.fst, kvFind k c.entries = none) →
      (insertAll c kvs).entries = (kvs.reverse ++ c.entries).take CACHE_CAP := by
  intro kvs
  induction kvs with
  | nil =>
    intro c hlen _ _
    simp [insertAll, List.take_of_length_le hlen]
  | cons kv rest ih =>
    intro c hlen hnd hfresh
    obtain ⟨k, v⟩ := kv
    have hk : kvFind k c.entries = none := hfresh k (by simp)
    have hput : lruPut c k v = ⟨((k, v) :: c.entries).take CACHE_CAP⟩ := by
      rw [lruPut, kvErase_of_find_none hk]
    have hlen₂ : (((k, v) :: c.entries).take CACHE_CAP).length ≤ CACHE_CAP := by
      rw [List.length_take]; exact Nat.min_le_left _ _
    have hnd₂ : (rest.map Prod.fst).Nodup := (List.nodup_cons.mp (by simpa using hnd)).2
    have hfresh₂ : ∀ k₂ ∈ rest.map Prod.fst,
        kvFind k₂ (((k, v) :: c.entries).take CACHE_CAP) = none := by
      intro k₂ hk₂
      have hne : k₂ ≠ k := by
        intro heq
        subst heq
        exact (List.nodup_cons.mp (by simpa using hnd)).1 hk₂
      rw [kvFind_eq_none]
      intro p hp
      rcases List.mem_cons.mp (List.mem_of_mem_take hp) with h | h
      · subst h; exact hne
      · exact (kvFind_eq_none.mp (hfresh k₂ (by simp [hk₂]))) p h
    have hrec := ih ⟨((k, v) :: c.entries).take CACHE_CAP⟩ hlen₂ hnd₂ hfresh₂
    calc (insertAll c ((k, v) :: rest)).entries
        = (insertAll ⟨((k, v) :: c.entries).take CACHE_CAP⟩ rest).entries := by
          simp [insertAll, hput]
      _ = (rest.reverse ++ ((k, v) :: c.entries).take CACHE_CAP).take CACHE_CAP := hrec
      _ = (rest.reverse ++ (k, v) :: c.entries).take CACHE_CAP :=
          take_append_take _ _ _
      _ = (((k, v) :: rest).reverse ++ c.entries).take CACHE_CAP := by
          rw [List.reverse_cons, List.append_assoc]; rfl

/-! ### Absent-key preservation through a scan -/

theorem kvFind_lruPut_none {c : LruCache} {k f : String} {v : Line}
    (hne : f ≠ k) (h : kvFind f c.entries = none) :
    kvFind f (lruPut c k v).entries = none := by
  rw [kvFind_eq_none] at h ⊢
  intro p hp
  rcases List.mem_cons.mp (List.mem_of_mem_take hp) with h₂ | h₂
  · subst h₂; exact hne
  · exact h p (kvErase_subset h₂)

theorem scanStep_skip {re : Rgx} {tw : Nat} {fsRead : String → Option Line}
    {st : List ResultEntry × LruCache} {f : String} (hf : fsRead f = none)
    (hc : kvFind f st.2.entries = none) : scanStep re tw fsRead st f = st := by
  simp [scanStep, lruGet, hc, hf]

theorem scanFold_absent {re : Rgx} {tw : Nat} {fsRead : String → Option Line}
    {f : String} (hf : fsRead f = none) :
    ∀ (files : List String) (st : List ResultEntry × LruCache),
      kvFind f st.2.entries = none →
      kvFind f (scanFold re tw fsRead files st).2.entries = none := by
  intro files
  induction files with
  | nil => intro st h; exact h
  | cons g fs ih =>
    intro st h
    rw [scanFold, List.foldl_cons]
    refine ih (scanStep re tw fsRead st g) ?_
    cases hkv : kvFind g st.2.entries with
    | some v =>
      have hne : f ≠ g := by
        intro heq; subst heq; rw [h] at hkv; exact absurd hkv (by simp)
      have hstep : scanStep re tw fsRead st g =
          (st.1 ++ processContent re tw g v, ⟨(g, v) :: kvErase g st.2.entries⟩) := by
        simp [scanStep, lruGet, hkv]
      rw [hstep]
      rw [kvFind_eq_none]
      intro p hp
      rcases List.mem_cons.mp hp with h₂ | h₂
      · subst h₂; exact hne
      · exact kvFind_eq_none.mp h p (kvErase_subset h₂)
    | none =>
      cases hfsg : fsRead g with
      | some ct =>
        have hne : f ≠ g := by
          intro heq; subst heq; rw [hf] at hfsg; exact absurd hfsg (by simp)
        have hstep : scanStep re tw fsRead st g =
            (st.1 ++ processContent re tw g ct, lruPut st.2 g ct) := by
          simp [scanStep, lruGet, hkv, hfsg]
        rw [hstep]
        exact kvFind_lruPut_none hne h
      | none =>
        rw [scanStep_skip hfsg hkv]
        exact h

/-! ### Agreement between cache and file system -/

theorem scanFold_agrees {re : Rgx} {tw : Nat} {fsRead : String → Option Line} :
    ∀ (files : List String) (acc : List ResultEntry) (c : LruCache),
      CacheAgrees fsRead c →
      (scanFold re tw fsRead files (acc, c)).1 =
        acc ++ pureScan re tw fsRead files ∧
      CacheAgrees fsRead (scanFold re tw fsRead files (acc, c)).2 := by
  intro files
  induction files with
  | nil =>
    intro acc c hc
    exact ⟨by simp [scanFold, pureScan], hc⟩
  | cons g fs ih =>
    intro acc c hc
    rw [scanFold, List.foldl_cons]
    cases hkv : kvFind g c.entries with
    | some v =>
      have hfsg : fsRead g = some v := hc (g, v) (kvFind_mem hkv)
      have hstep : scanStep re tw fsRead (acc, c) g =
          (acc ++ processContent re tw g v, ⟨(g, v) :: kvErase g c.entries⟩) := by
        simp [scanStep, lruGet, hkv]
      rw [hstep]
      have hc₂ : CacheAgrees fsRead ⟨(g, v) :: kvErase g c.entries⟩ := by
        intro p hp
        rcases List.mem_cons.mp hp with h | h
        · subst h; exact hfsg
        · exact hc p (kvErase_subset h)
      obtain ⟨h1, h2⟩ := ih (acc ++ processContent re tw g v) _ hc₂
      refine ⟨?_, h2⟩
      rw [scanFold] at h1
      rw [h1, pureScan, hfsg, List.append_assoc]
    | none =>
      cases hfsg : fsRead g with
      | some ct =>
        have hstep : scanStep re tw fsRead (acc, c) g =
            (acc ++ processContent re tw g ct, lruPut c g ct) := by
          simp [scanStep, lruGet, hkv, hfsg]
        rw [hstep]
        have hc₂ : CacheAgrees fsRead (lruPut c g ct) := by
          intro p hp
          rcases List.mem_cons.mp (List.mem_of_mem_take hp) with h | h
          · subst h; exact hfsg
          · exact hc p (kvErase_subset h)
        obtain ⟨h1, h2⟩ := ih (acc ++ processContent re tw g ct) _ hc₂
        refine ⟨?_, h2⟩
        rw [scanFold] at h1
        rw [h1, pureScan, hfsg, List.append_assoc]
      | none =>
        rw [scanStep_skip hfsg hkv]
        obtain ⟨h1, h2⟩ := ih acc c hc
        refine ⟨?_, h2⟩
        rw [scanFold] at h1
        rw [h1, pureScan, hfsg]
        simp

/-! ### Windowing helper lemmas -/

theorem windowLine_spec_eq (tw : Nat) (line : Line) (rs : List MatchRange)
    (first : Nat) (hlong : tw - 33 < line.length) :
    windowLine tw line rs first = windowSpecC1 (tw - 33) line rs first := by
  simp only [windowLine, windowSpecC1, if_pos hlong, adjustRanges]
  by_cases h₁ : 0 < first - min 20 first <;>
    by_cases h₂ : min (first - min 20 first + (tw - 33)) line.length <
      line.length <;>
      simp [h₁, h₂, List.append_assoc]

theorem anchor_mem_adjust (rs : List MatchRange) (r : MatchRange)
    (sp po L : Nat) (hsp : sp ≤ r.1) (hlt : r.1 - sp + po < L) :
    (r.1 - sp + po, min (r.2 - sp + po) L) ∈ adjustRanges (r :: rs) sp po L := by
  unfold adjustRanges
  rw [List.filter_cons_of_pos (by simpa using hsp), List.map_cons,
    List.filter_cons_of_pos ?_]
  · exact List.mem_cons_self _ _
  · simp only [Bool.and_eq_true, decide_eq_true_eq]
    exact ⟨hlt, Nat.min_le_right _ _⟩

theorem windowSpecC1_anchor (W : Nat) (line : Line) (r : MatchRange)
    (rest : List MatchRange) (hs : r.1 < line.length)
    (hctx : min 20 r.1 < W + 3) :
    (r.1 - (r.1 - min 20 r.1) + (if 0 < r.1 - min 20 r.1 then 3 else 0),
      min (r.2 - (r.1 - min 20 r.1) + (if 0 < r.1 - min 20 r.1 then 3 else 0))
        (windowSpecC1 W line (r :: rest) r.1).1.length) ∈
      (windowSpecC1 W line (r :: rest) r.1).2 ∧
    r.1 - (r.1 - min 20 r.1) + (if 0 < r.1 - min 20 r.1 then 3 else 0) <
      (windowSpecC1 W line (r :: rest) r.1).1.length := by
  have hfst : (windowSpecC1 W line (r :: rest) r.1).1 =
      (if 0 < r.1 - min 20 r.1 then dots else []) ++
        (line.drop (r.1 - min 20 r.1)).take
          (min (r.1 - min 20 r.1 + W) line.length - (r.1 - min 20 r.1)) ++
        (if min (r.1 - min 20 r.1 + W) line.length < line.length then dots
          else []) := rfl
  have hlt : r.1 - (r.1 - min 20 r.1) +
      (if 0 < r.1 - min 20 r.1 then 3 else 0) <
      (windowSpecC1 W line (r :: rest) r.1).1.length := by
    rw [hfst]
    by_cases h₁ : 0 < r.1 - min 20 r.1 <;>
      by_cases h₂ : min (r.1 - min 20 r.1 + W) line.length < line.length <;>
        simp [h₁, h₂, dots, List.length_append] <;> omega
  refine ⟨?_, hlt⟩
  have hspec₂ : (windowSpecC1 W line (r :: rest) r.1).2 =
      adjustRanges (r :: rest) (r.1 - min 20 r.1)
        (if 0 < r.1 - min 20 r.1 then 3 else 0)
        (windowSpecC1 W line (r :: rest) r.1).1.length := rfl
  rw [hspec₂]
  exact anchor_mem_adjust rest r _ _ _ (Nat.sub_le _ _) hlt

/-! ### Claim theorems -/

/-- C1: for every line whose raw length exceeds the width budget
`W = terminal_width - 33` and that has at least one match, the display window
is built exactly as the specification states: `context = min(20,
first_match_start)`, `start_pos = first_match_start - context`,
`end_pos = min(start_pos + W, line.length)`, the display string is
`line[start_pos..end_pos]` with `"..."` prepended (and `prefix_offset = 3`)
iff `start_pos > 0` and `"..."` appended iff `end_pos < line.length`, and
each kept range remapped by `new_start = start - start_pos + prefix_offset`,
`new_end = end - start_pos + prefix_offset` clamped to the display length
(`windowSpecC1` is that construction, written from the claim's words). -/
theorem C1_window_construction (re : Rgx) (tw : Nat) (line : Line)
    (r : MatchRange) (rest : List MatchRange)
    (hfind : re.findIter line = r :: rest) (hlong : tw - 33 < line.length) :
    processLine re tw line =
      some (windowSpecC1 (tw - 33) line (r :: rest) r.1) := by
  have hpl : processLine re tw line =
      some (windowLine tw line (r :: rest) r.1) := by
    unfold processLine; rw [hfind]
  rw [hpl, windowLine_spec_eq tw line (r :: rest) r.1 hlong]

/-- Witness for C1 at a concrete input: a 60-character line whose only match
of the literal regex `"a"` starts at offset 55, with terminal width 83
(`W = 50`). -/
theorem C1_window_construction_witness :
    processLine (charRegex 'a') 83
        (List.replicate 55 'z' ++ 'a' :: List.replicate 4 'z') =
      some (windowSpecC1 (83 - 33)
        (List.replicate 55 'z' ++ 'a' :: List.replicate 4 'z')
        [(55, 56)] 55) :=
  C1_window_construction _ _ _ _ _ (by decide) (by decide)

/-- C2 as stated is false: for the end-anchor regex `"$"`, whose only match
on a 60-character line is the zero-width range `(60, 60)`, the long-line
window keeps the anchor's remapped start exactly at the display length, so
the `start < display_line.length` filter drops the anchor match itself and
the entry's display_ranges are empty. -/
theorem C2_counterexample :
    dollarRegex.WF ∧
    (83 : Nat) - 33 < (List.replicate 60 'z' : Line).length ∧
    dollarRegex.findIter (List.replicate 60 'z') = [(60, 60)] ∧
    processLine dollarRegex 83 (List.replicate 60 'z') =
      some (dots ++ List.replicate 20 'z', []) := by
  refine ⟨dollarRegex_wf, by decide, by decide, by decide⟩

/-- C2 amended: for a long matched line, the anchor (first) match's remapped
range is retained in display_ranges and contained in
`[0, display_line.length)` provided the anchor starts strictly before the end
of the line and its left context `min(20, first_match_start)` is smaller than
`W + 3`; both conditions hold in every non-degenerate case (in particular
whenever `W ≥ 18` and the anchor is not a zero-width match at the very end of
the line). -/
theorem C2_anchor_visible (re : Rgx) (tw : Nat) (line : Line)
    (r : MatchRange) (rest : List MatchRange)
    (hfind : re.findIter line = r :: rest) (hlong : tw - 33 < line.length)
    (hs : r.1 < line.length) (hctx : min 20 r.1 < tw - 33 + 3) :
    ∃ d ranges, processLine re tw line = some (d, ranges) ∧
      (r.1 - (r.1 - min 20 r.1) + (if 0 < r.1 - min 20 r.1 then 3 else 0),
        min (r.2 - (r.1 - min 20 r.1) +
          (if 0 < r.1 - min 20 r.1 then 3 else 0)) d.length) ∈ ranges ∧
      r.1 - (r.1 - min 20 r.1) + (if 0 < r.1 - min 20 r.1 then 3 else 0) <
        d.length ∧
      min (r.2 - (r.1 - min 20 r.1) +
        (if 0 < r.1 - min 20 r.1 then 3 else 0)) d.length ≤ d.length := by
  have hpl : processLine re tw line =
      some (windowLine tw line (r :: rest) r.1) := by
    unfold processLine; rw [hfind]
  rw [windowLine_spec_eq tw line (r :: rest) r.1 hlong] at hpl
  obtain ⟨hmem, hlt⟩ :=
    windowSpecC1_anchor (tw - 33) line r rest hs hctx
  exact ⟨(windowSpecC1 (tw - 33) line (r :: rest) r.1).1,
    (windowSpecC1 (tw - 33) line (r :: rest) r.1).2,
    by rw [hpl], hmem, hlt, Nat.min_le_right _ _⟩

set_option maxRecDepth 4096 in
/-- Witness for the amended C2: the 200-character line of the specification
scenario, matching the literal regex `"a"` at offset 150 with `W = 50`; the
anchor is remapped to `(23, 24)` inside a 56-character display line. -/
theorem C2_anchor_visible_witness :
    ∃ d ranges, processLine (charRegex 'a') 83
        (List.replicate 150 'z' ++ 'a' :: List.replicate 49 'z') =
          some (d, ranges) ∧
      ((150 : Nat) - (150 - min 20 150) +
          (if 0 < (150 : Nat) - min 20 150 then 3 else 0),
        min ((151 : Nat) - (150 - min 20 150) +
          (if 0 < (150 : Nat) - min 20 150 then 3 else 0)) d.length) ∈
        ranges ∧
      (150 : Nat) - (150 - min 20 150) +
          (if 0 < (150 : Nat) - min 20 150 then 3 else 0) < d.length ∧
      min ((151 : Nat) - (150 - min 20 150) +
        (if 0 < (150 : Nat) - min 20 150 then 3 else 0)) d.length ≤
        d.length :=
  C2_anchor_visible (charRegex 'a') 83
    (List.replicate 150 'z' ++ 'a' :: List.replicate 49 'z') (150, 151) []
    (by decide) (by decide) (by decide) (by decide)

/-- C3 as stated is false: for the empty-match regex (the behaviour of `""`,
or of `"a*"` on an `'a'`-free line), the line `"b"` fits the width budget and
`find_iter` yields `[(0,0), (1,1)]`, yet the produced display_ranges are
`[(0,0)]` — the zero-width match at the end of the line does not pass
through. -/
theorem C3_counterexample :
    zwRegex.WF ∧
    (['b'] : Line).length ≤ 83 - 33 ∧
    zwRegex.findIter ['b'] = [(0, 0), (1, 1)] ∧
    processLine zwRegex 83 ['b'] = some (['b'], [(0, 0)]) ∧
    ([((0 : Nat), (0 : Nat))] : List MatchRange) ≠ [(0, 0), (1, 1)] :=
  ⟨zwRegex_wf, by decide, by decide, by decide, by decide⟩

/-- C3 amended: for every matched line whose raw length is at most the width
budget, display_line equals the raw line unmodified and display_ranges equal
the raw match ranges restricted to those starting strictly before the line
end; every range with `start < line.length` passes through unchanged, and
only zero-width matches located exactly at the line end are dropped. -/
theorem C3_short_line_passthrough (re : Rgx) (tw : Nat) (line : Line)
    (hWF : re.WF) (r : MatchRange) (rest : List MatchRange)
    (hfind : re.findIter line = r :: rest)
    (hshort : line.length ≤ tw - 33) :
    processLine re tw line =
      some (line, (r :: rest).filter fun p => decide (p.1 < line.length)) := by
  have hpl : processLine re tw line =
      some (windowLine tw line (r :: rest) r.1) := by
    unfold processLine; rw [hfind]
  rw [hpl]
  have hnl : ¬(tw - 33 < line.length) := Nat.not_lt.mpr hshort
  simp only [windowLine, if_neg hnl]
  obtain ⟨hb, _⟩ := hWF line
  rw [hfind] at hb
  congr 1
  unfold adjustRanges
  have hfil : (r :: rest).filter (fun q => decide ((0 : Nat) ≤ q.1)) =
      r :: rest := List.filter_eq_self.mpr (by intro a _; simp)
  rw [hfil]
  have hmap : ((r :: rest).map fun q =>
      (q.1 - 0 + 0, min (q.2 - 0 + 0) line.length)) = r :: rest := by
    have hid : ∀ q ∈ r :: rest,
        (fun q => (q.1 - 0 + 0, min (q.2 - 0 + 0) line.length)) q = id q := by
      intro q hq
      simp [Nat.min_eq_left ((hb q hq).2)]
    rw [List.map_congr_left hid, List.map_id]
  rw [hmap]
  congr 1
  refine List.filter_congr ?_
  intro q hq
  have h₂ : decide (q.2 ≤ line.length) = true := by
    simp [(hb q hq).2]
  rw [h₂, Bool.and_true]

/-- Witness for the amended C3: the short line `"hello a world"` with the
literal regex `"a"`; the single match `(6, 7)` passes through unchanged. -/
theorem C3_short_line_passthrough_witness :
    processLine (charRegex 'a') 83 ("hello a world").data =
      some (("hello a world").data,
        ([((6 : Nat), (7 : Nat))] : List MatchRange).filter fun p =>
          decide (p.1 < ("hello a world").data.length)) :=
  C3_short_line_passthrough _ _ _ (charRegex_wf 'a') _ _ (by decide)
    (by decide)

/-- C4: in every ResultEntry produced by `search_file_contents`, the
display_ranges all lie within `[0, display_line.length]` (each range has
`start ≤ end ≤ display_line.length`, starts being `Nat` are nonnegative),
and they are ordered by start offset and pairwise non-overlapping
(consecutive-in-list ranges `a` before `b` satisfy `a.end ≤ b.start`, hence
also `a.start ≤ b.start`), assuming every compiled regex behaves like
non-overlapping leftmost find iteration. -/
theorem C4_ranges_invariant (compile : String → Option Rgx)
    (fsRead : String → Option Line) (files : List String) (q : String)
    (c : LruCache) (tw : Nat)
    (hWF : ∀ re, compile q = some re → re.WF) :
    ∀ e ∈ (searchFileContents compile fsRead files q c tw).1,
      (∀ p ∈ e.2.2, p.1 ≤ p.2 ∧ p.2 ≤ e.2.1.length) ∧
      e.2.2.Pairwise fun a b => a.2 ≤ b.1 := by
  intro e he
  unfold searchFileContents at he
  by_cases hq : q = ""
  · rw [if_pos hq] at he
    obtain ⟨f, _, hf⟩ := List.mem_map.mp he
    rw [← hf]
    simp
  · rw [if_neg hq] at he
    cases hcomp : compile q with
    | none =>
      rw [hcomp] at he
      rw [List.mem_singleton.mp he]
      simp
    | some re =>
      rw [hcomp] at he
      refine scanFold_mem
        (fun e₂ => (∀ p ∈ e₂.2.2, p.1 ≤ p.2 ∧ p.2 ≤ e₂.2.1.length) ∧
          e₂.2.2.Pairwise fun a b => a.2 ≤ b.1) ?_ files ([], c)
        (by simp) e he
      intro path content e₂ he₂
      obtain ⟨line, d, ranges, hplm, heq⟩ := mem_processContent he₂
      subst heq
      exact processLine_invariant (hWF re hcomp) hplm

/-- Witness for C4 at a concrete input: one file holding `"a"`, the literal
regex `"a"`, and the single produced entry `("a.txt", "a", [(0, 1)])`. -/
theorem C4_ranges_invariant_witness :
    (∀ p ∈ (("a.txt", ['a'], [((0 : Nat), (1 : Nat))]) : ResultEntry).2.2,
        p.1 ≤ p.2 ∧ p.2 ≤ (("a.txt", ['a'],
          [((0 : Nat), (1 : Nat))]) : ResultEntry).2.1.length) ∧
    ((("a.txt", ['a'], [((0 : Nat), (1 : Nat))]) : ResultEntry)).2.2.Pairwise
      (fun a b => a.2 ≤ b.1) :=
  C4_ranges_invariant (fun _ => some (charRegex 'a')) (fun _ => some ['a'])
    ["a.txt"] "a" ⟨[]⟩ 83
    (fun re h => (Option.some.inj h) ▸ charRegex_wf 'a')
    ("a.txt", ['a'], [(0, 1)]) (by decide)

/-- C5: for every non-empty query that fails to compile,
`search_file_contents` returns exactly the single sentinel entry
`("", "Invalid regex pattern", [])` and leaves the cache exactly as it was
(no lookup, insertion or recency update is performed, and no file is
scanned: the function returns before touching the cache or the file set). -/
theorem C5_invalid_pattern (compile : String → Option Rgx)
    (fsRead : String → Option Line) (files : List String) (q : String)
    (c : LruCache) (tw : Nat) (hq : q ≠ "") (hcomp : compile q = none) :
    searchFileContents compile fsRead files q c tw =
      ([("", invalidMsg, [])], c) := by
  simp [searchFileContents, hq, hcomp]

/-- Witness for C5 at the specification's concrete input: the unbalanced
query `"("` under a compile function that rejects it. -/
theorem C5_invalid_pattern_witness :
    ("(" : String) ≠ "" ∧
    searchFileContents (fun _ => none) (fun _ => none) ["a.txt"] "(" ⟨[]⟩ 83 =
      ([("", invalidMsg, [])], ⟨[]⟩) :=
  ⟨by decide, C5_invalid_pattern _ _ _ _ _ _ (by decide) rfl⟩

/-- C6: for the empty query string, `search_file_contents` returns exactly
one ResultEntry per file of the FileSet, in FileSet order, each with an
empty display line and empty display ranges, and the cache is untouched (the
function returns before any line-level scan or cache access). -/
theorem C6_empty_query (compile : String → Option Rgx)
    (fsRead : String → Option Line) (files : List String) (c : LruCache)
    (tw : Nat) :
    searchFileContents compile fsRead files "" c tw =
      (files.map fun f => (f, ([] : Line), ([] : List MatchRange)), c) := by
  simp [searchFileContents]

/-! ### Cache size preservation through the scan -/

theorem applyOp_length_le {c : LruCache} {op : CacheOp}
    (h : c.entries.length ≤ CACHE_CAP) :
    (applyOp c op).entries.length ≤ CACHE_CAP := by
  cases op with
  | get k => rw [applyOp, lruGet_snd_length]; exact h
  | put k v => exact lruPut_length_le _ _ _

theorem scanStep_length_le {re : Rgx} {tw : Nat}
    {fsRead : String → Option Line} {st : List ResultEntry × LruCache}
    {f : String} (h : st.2.entries.length ≤ CACHE_CAP) :
    (scanStep re tw fsRead st f).2.entries.length ≤ CACHE_CAP := by
  unfold scanStep
  cases hkv : kvFind f st.2.entries with
  | some v =>
    have := kvErase_length hkv
    simp only [lruGet, hkv]
    simp only [List.length_cons]
    omega
  | none =>
    cases hfsr : fsRead f with
    | some content =>
      simp only [lruGet, hkv, hfsr]
      exact lruPut_length_le _ _ _
    | none =>
      simp only [lruGet, hkv, hfsr]
      exact h

theorem scanFold_length_le {re : Rgx} {tw : Nat}
    {fsRead : String → Option Line} :
    ∀ (files : List String) (st : List ResultEntry × LruCache),
      st.2.entries.length ≤ CACHE_CAP →
      (scanFold re tw fsRead files st).2.entries.length ≤ CACHE_CAP := by
  intro files
  induction files with
  | nil => intro st h; exact h
  | cons f fs ih =>
    intro st h
    rw [scanFold, List.foldl_cons]
    exact ih _ (scanStep_length_le h)

/-- C7: the Content Cache's size never exceeds its fixed capacity of 100
entries after any sequence of get/put operations starting within capacity;
after inserting `N > 100` distinct entries into an empty cache, the cache
size equals the capacity and exactly the 100 most recently inserted keys are
present, most recent first (the least-recently-used entries have been
evicted); and a `search_file_contents` call keeps the cache within
capacity. -/
theorem C7_cache_capacity :
    (∀ (c : LruCache) (ops : List CacheOp),
      c.entries.length ≤ CACHE_CAP →
      (applyOps c ops).entries.length ≤ CACHE_CAP) ∧
    (∀ kvs : List (String × Line), (kvs.map Prod.fst).Nodup →
      CACHE_CAP < kvs.length →
      (insertAll ⟨[]⟩ kvs).entries.length = CACHE_CAP ∧
      (insertAll ⟨[]⟩ kvs).entries.map Prod.fst =
        ((kvs.map Prod.fst).reverse).take CACHE_CAP) ∧
    (∀ (compile : String → Option Rgx) (fsRead : String → Option Line)
        (files : List String) (q : String) (c : LruCache) (tw : Nat),
      c.entries.length ≤ CACHE_CAP →
      (searchFileContents compile fsRead files q c tw).2.entries.length ≤
        CACHE_CAP) := by
  refine ⟨?_, ?_, ?_⟩
  · intro c ops
    induction ops generalizing c with
    | nil => intro h; exact h
    | cons op rest ih =>
      intro h
      rw [applyOps, List.foldl_cons]
      exact ih _ (applyOp_length_le h)
  · intro kvs hnd hlen
    have hfresh : ∀ k ∈ kvs.map Prod.fst,
        kvFind k (LruCache.mk []).entries = none := fun k _ => rfl
    have h := insertAll_fresh kvs ⟨[]⟩ (by simp) hnd hfresh
    constructor
    · rw [h]
      simp only [List.append_nil, List.length_take, List.length_reverse]
      omega
    · rw [h]
      simp only [List.append_nil, ← List.map_take, ← List.map_reverse]
  · intro compile fsRead files q c tw h
    unfold searchFileContents
    by_cases hq : q = ""
    · rw [if_pos hq]; exact h
    · rw [if_neg hq]
      cases hcomp : compile q with
      | none => exact h
      | some re => exact scanFold_length_le files ([], c) h

/-- Witness for C7: a two-operation sequence on a one-entry cache, the
101-pair insertion fixture, and a one-file search from an empty cache. -/
theorem C7_cache_capacity_witness :
    ((applyOps ⟨[("a", ['a'])]⟩
        [CacheOp.get "a", CacheOp.put "b" []]).entries.length ≤ CACHE_CAP) ∧
    ((insertAll ⟨[]⟩ kvs101).entries.length = CACHE_CAP ∧
      (insertAll ⟨[]⟩ kvs101).entries.map Prod.fst =
        ((kvs101.map Prod.fst).reverse).take CACHE_CAP) ∧
    ((searchFileContents (fun _ => some (charRegex 'a'))
        (fun _ => some ['a']) ["x.txt"] "a" ⟨[]⟩ 83).2.entries.length ≤
      CACHE_CAP) :=
  ⟨C7_cache_capacity.1 _ _ (by decide),
    C7_cache_capacity.2.1 kvs101 (by decide) (by decide),
    C7_cache_capacity.2.2 _ _ _ _ _ _ (by decide)⟩

/-- C8: when reading a file fails (its lookup misses the cache and the file
system read returns an error), the file is silently skipped for the current
scan: the whole result and the final cache state are exactly those of the
same scan without that file — it contributes no ResultEntry and no error
entry, and the failed read leaves the cache unmutated.  The FileSet itself
is an immutable input, so the file remains a candidate for later scans. -/
theorem C8_unreadable_file_skipped (compile : String → Option Rgx)
    (fsRead : String → Option Line) (xs ys : List String) (f q : String)
    (c : LruCache) (tw : Nat) (re : Rgx) (hq : q ≠ "")
    (hcomp : compile q = some re) (hf : fsRead f = none)
    (hfc : kvFind f c.entries = none) :
    searchFileContents compile fsRead (xs ++ f :: ys) q c tw =
      searchFileContents compile fsRead (xs ++ ys) q c tw := by
  simp only [searchFileContents, if_neg hq, hcomp]
  have habs := @scanFold_absent re tw fsRead f hf xs ([], c) hfc
  rw [scanFold] at habs
  unfold scanFold
  rw [List.foldl_append, List.foldl_append, List.foldl_cons,
    scanStep_skip hf habs]

/-- Witness for C8: the middle file `"bad.txt"` is unreadable; scanning
`["g.txt", "bad.txt", "h.txt"]` equals scanning `["g.txt", "h.txt"]`. -/
theorem C8_unreadable_file_skipped_witness :
    searchFileContents (fun _ => some (charRegex 'a'))
        (fun p => if p = "bad.txt" then none else some ['a'])
        (["g.txt"] ++ "bad.txt" :: ["h.txt"]) "a" ⟨[]⟩ 83 =
      searchFileContents (fun _ => some (charRegex 'a'))
        (fun p => if p = "bad.txt" then none else some ['a'])
        (["g.txt"] ++ ["h.txt"]) "a" ⟨[]⟩ 83 :=
  C8_unreadable_file_skipped _ _ _ _ _ _ _ _ _ (by decide) rfl (by decide)
    rfl

set_option maxRecDepth 100000 in
/-- C9 as stated is false: with a stale cache entry, the first run can answer
from the stale content and then evict that entry (100 distinct files are
inserted after it), so the second run re-reads the changed file from disk and
produces a different ResultSequence.  Concretely: the cache holds `"a" ↦ "a"`
while the file system holds `"a" ↦ "b"`; with query `"a"` the first run
returns one match and the chained second run returns none. -/
theorem C9_counterexample :
    (searchFileContents cCompile cFs cFiles "a"
        (searchFileContents cCompile cFs cFiles "a" cCache 83).2 83).1 ≠
      (searchFileContents cCompile cFs cFiles "a" cCache 83).1 := by
  decide

/-- C9 amended: running `search_file_contents` twice in succession with the
same FileSet, the same query and the cache state resulting from the first run
yields two structurally identical ResultSequences, provided every entry of
the initial cache agrees with the current file-system content (no stale
entries); the insertions and recency updates performed by the first run then
cannot change the computed results. -/
theorem C9_idempotent_when_fresh (compile : String → Option Rgx)
    (fsRead : String → Option Line) (files : List String) (q : String)
    (c : LruCache) (tw : Nat) (hagree : CacheAgrees fsRead c) :
    (searchFileContents compile fsRead files q
        (searchFileContents compile fsRead files q c tw).2 tw).1 =
      (searchFileContents compile fsRead files q c tw).1 := by
  by_cases hq : q = ""
  · simp [searchFileContents, hq]
  · cases hcomp : compile q with
    | none => simp [searchFileContents, hq, hcomp]
    | some re =>
      simp only [searchFileContents, if_neg hq, hcomp]
      obtain ⟨h₁, h₂⟩ :=
        @scanFold_agrees re tw fsRead files [] c hagree
      obtain ⟨h₃, _⟩ := @scanFold_agrees re tw fsRead files []
        (scanFold re tw fsRead files ([], c)).2 h₂
      rw [h₁, h₃]

/-- Witness for the amended C9: a fresh two-file run whose initial cache
entry agrees with the file system. -/
theorem C9_idempotent_when_fresh_witness :
    (searchFileContents (fun _ => some (charRegex 'a'))
        (fun _ => some ['a']) ["x.txt", "y.txt"] "a"
        (searchFileContents (fun _ => some (charRegex 'a'))
          (fun _ => some ['a']) ["x.txt", "y.txt"] "a"
          ⟨[("x.txt", ['a'])]⟩ 83).2 83).1 =
      (searchFileContents (fun _ => some (charRegex 'a'))
        (fun _ => some ['a']) ["x.txt", "y.txt"] "a"
        ⟨[("x.txt", ['a'])]⟩ 83).1 :=
  C9_idempotent_when_fresh _ _ _ _ _ _
    (by intro p hp; cases List.mem_singleton.mp hp; rfl)

/-- C10: in every ResultEntry produced by `search_file_contents`, every
retained display range has start strictly less than the display line's
length; consequently the zero-width match at the very end of a line (the
behaviour of `"a*"` on a line not ending in `'a'`, modelled by `zwRegex`) is
dropped from display_ranges even when the line fits the width budget (on
`"b"` the raw matches are `[(0,0), (1,1)]` but the display ranges are
`[(0,0)]`), and a non-sentinel ResultEntry can have matches on its line yet
an empty display_ranges list (an empty line matches at `(0,0)` but yields
`("f.txt", "", [])`). -/
theorem C10_start_lt_display_length :
    (∀ (compile : String → Option Rgx) (fsRead : String → Option Line)
        (files : List String) (q : String) (c : LruCache) (tw : Nat),
      ∀ e ∈ (searchFileContents compile fsRead files q c tw).1,
        ∀ p ∈ e.2.2, p.1 < e.2.1.length) ∧
    zwRegex.findIter ['b'] = [(0, 0), (1, 1)] ∧
    processLine zwRegex 83 ['b'] = some (['b'], [(0, 0)]) ∧
    zwRegex.findIter ([] : Line) = [(0, 0)] ∧
    searchFileContents (fun _ => some zwRegex) (fun _ => some ['\n'])
        ["f.txt"] "a*" ⟨[]⟩ 83 =
      ([("f.txt", [], [])], ⟨[("f.txt", ['\n'])]⟩) := by
  refine ⟨?_, by decide, by decide, by decide, by decide⟩
  intro compile fsRead files q c tw e he
  unfold searchFileContents at he
  by_cases hq : q = ""
  · rw [if_pos hq] at he
    obtain ⟨f, _, hf⟩ := List.mem_map.mp he
    rw [← hf]
    simp
  · rw [if_neg hq] at he
    cases hcomp : compile q with
    | none =>
      rw [hcomp] at he
      rw [List.mem_singleton.mp he]
      simp
    | some re =>
      rw [hcomp] at he
      refine scanFold_mem (fun e₂ => ∀ p ∈ e₂.2.2, p.1 < e₂.2.1.length)
        ?_ files ([], c) (by simp) e he
      intro path content e₂ he₂
      obtain ⟨line, d, ranges, hplm, heq⟩ := mem_processContent he₂
      subst heq
      exact processLine_mem_lt hplm

/-- Witness for the universally quantified part of C10 at a concrete input:
the entry produced for a file holding `"a"` under the literal regex `"a"`. -/
theorem C10_start_lt_display_length_witness :
    ∀ p ∈ (("a.txt", ['a'], [((0 : Nat), (1 : Nat))]) : ResultEntry).2.2,
      p.1 < (("a.txt", ['a'],
        [((0 : Nat), (1 : Nat))]) : ResultEntry).2.1.length :=
  C10_start_lt_display_length.1 (fun _ => some (charRegex 'a'))
    (fun _ => some ['a']) ["a.txt"] "a" ⟨[]⟩ 83
    ("a.txt", ['a'], [(0, 1)]) (by decide)
